import Mathlib

/-!
Verification of `jumble_solver.py`.

The program builds an anagram lookup map (`COUNTER_TO_ANAGRAMS`) from a word
list and then enumerates character subsets of a query word to find all
"sub-anagrams".  We embed the program shallowly:

* a Python `frozenset(Counter(word).items())` key becomes a
  `Finset (Char × Nat)` of (character, count) pairs;
* the `defaultdict(set)` becomes an insertion-ordered association list from
  keys to duplicate-free word lists (Python dicts are insertion ordered; a
  Python `set` is modelled as a duplicate-free list, membership-insensitive
  to order);
* `itertools.combinations(input_word, i)` (position-ordered tuples of
  characters) becomes `List.sublistsLen i` of the character list, and the
  surrounding `set(...)` becomes `List.dedup`;
* the generator of printed words becomes the list of words in emission order.
-/

namespace JumbleSolver

/-- The key type: `frozenset(Counter(word).items())`, a set of
(character, count) pairs. -/
abbrev Key := Finset (Char × Nat)

/-- The map type of `COUNTER_TO_ANAGRAMS`: an insertion-ordered dictionary
from keys to sets of words, as an association list. -/
abbrev Index := List (Key × List String)

/-- `frozenset(Counter(l).items())` for a sequence of characters `l`:
the set of pairs `(c, count of c in l)` for each `c` occurring in `l`. -/
def counterItems (l : List Char) : Key :=
  l.toFinset.image (fun c => (c, l.count c))

/-- The key of a word string. -/
def counterKey (w : String) : Key :=
  counterItems w.toList

/-- Python `set.add`: insert a word into a set, a no-op when present. -/
def setAdd (s : List String) (w : String) : List String :=
  if w ∈ s then s else s ++ [w]

/-- `COUNTER_TO_ANAGRAMS[k].add(w)` on a `defaultdict(set)`: update the
set at the (unique) entry with key `k`, appending a fresh entry built from
the empty default set when the key is absent.  (Python dicts are insertion
ordered and keep one entry per key.) -/
def dictAdd : Index → Key → String → Index
  | [], k, w => [(k, setAdd [] w)]
  | e :: idx, k, w =>
    if e.1 = k then (e.1, setAdd e.2 w) :: idx else e :: dictAdd idx k w

/-- `COUNTER_TO_ANAGRAMS.get(k, [])`: read the set at key `k`, the empty
collection when absent.  Does not modify the dictionary. -/
def lookupD : Index → Key → List String
  | [], _ => []
  | e :: idx, k => if e.1 = k then e.2 else lookupD idx k

/-- `line.strip()`: remove leading and trailing whitespace characters. -/
def strip (s : String) : String :=
  String.mk (((s.toList.dropWhile Char.isWhitespace).reverse.dropWhile
    Char.isWhitespace).reverse)

/-- One iteration of the ingestion loop: `word = line.strip()` followed by
`COUNTER_TO_ANAGRAMS[frozenset(Counter(word).items())].add(word)`. -/
def ingestLine (idx : Index) (line : String) : Index :=
  dictAdd idx (counterKey (strip line)) (strip line)

/-- `ingest_word_list`: fold the ingestion loop over the lines of the
source, starting from the empty dictionary. -/
def ingestLines (lines : List String) : Index :=
  lines.foldl ingestLine []

/-- `set(combinations(input_word, i))`: the deduplicated list of all
position-ordered length-`i` character subsequences of the input word. -/
def combosOf (w : String) (i : Nat) : List (List Char) :=
  (w.toList.sublistsLen i).dedup

/-- The body of the outer loop of `solve_jumble` at subset length `i`:
for each distinct combination, look up its key and emit every stored word
other than the input word itself. -/
def solveLen (idx : Index) (w : String) (i : Nat) : List String :=
  (combosOf w i).flatMap (fun combo =>
    (lookupD idx (counterItems combo)).filter (fun word => word ≠ w))

/-- `solve_jumble`: iterate `i` over `range(1, len(input_word)+1)` and
concatenate the emissions; the result is the list of printed words. -/
def solveJumble (idx : Index) (w : String) : List String :=
  (List.range' 1 w.length).flatMap (solveLen idx w)

/-- The dictionary read used by the solver, written in state-passing style:
`.get` returns the value at the key together with the (unchanged)
dictionary state. -/
def dictGet (idx : Index) (k : Key) : List String × Index :=
  (lookupD idx k, idx)

/-- One inner-loop step of `solve_jumble` threading the dictionary state:
read the set at the combination's key through `dictGet` and append the
non-self matches to the output. -/
def solveStep (w : String) (acc : List String × Index) (combo : List Char) :
    List String × Index :=
  (acc.1 ++ (dictGet acc.2 (counterItems combo)).1.filter (fun word => word ≠ w),
   (dictGet acc.2 (counterItems combo)).2)

/-- `solve_jumble` with the dictionary state threaded explicitly through
every read; returns the printed words together with the final state of the
dictionary. -/
def solveJumbleFull (idx : Index) (w : String) : List String × Index :=
  (List.range' 1 w.length).foldl
    (fun acc i => (combosOf w i).foldl (solveStep w) acc) ([], idx)

/-! ### Set and dictionary operations -/

theorem setAdd_of_mem {s : List String} {w : String} (h : w ∈ s) :
    setAdd s w = s := if_pos h

theorem mem_setAdd {s : List String} {w x : String} :
    x ∈ setAdd s w ↔ x ∈ s ∨ x = w := by
  by_cases h : w ∈ s
  · rw [setAdd_of_mem h]
    exact ⟨Or.inl, fun h' => h'.elim id fun hx => hx ▸ h⟩
  · simp [setAdd, if_neg h]

theorem self_mem_setAdd (s : List String) (w : String) : w ∈ setAdd s w :=
  mem_setAdd.mpr (Or.inr rfl)

theorem setAdd_idem (s : List String) (w : String) :
    setAdd (setAdd s w) w = setAdd s w :=
  setAdd_of_mem (self_mem_setAdd s w)

theorem setAdd_nodup {s : List String} (h : s.Nodup) (w : String) :
    (setAdd s w).Nodup := by
  by_cases hw : w ∈ s
  · rw [setAdd_of_mem hw]; exact h
  · simp [setAdd, if_neg hw, List.nodup_append, h, hw]

theorem lookupD_dictAdd (idx : Index) (k k' : Key) (w : String) :
    lookupD (dictAdd idx k w) k' =
      if k' = k then setAdd (lookupD idx k) w else lookupD idx k' := by
  induction idx with
  | nil =>
    by_cases h : k' = k
    · subst h; simp [dictAdd, lookupD]
    · have h2 : ¬(k = k') := fun hh => h hh.symm
      simp [dictAdd, lookupD, h, h2]
  | cons e idx ih =>
    by_cases he : e.1 = k
    · simp only [dictAdd, if_pos he]
      by_cases hk : k' = k
      · subst hk; simp [lookupD, he]
      · have h1 : e.1 ≠ k' := fun hh => hk ((he ▸ hh : k = k')).symm
        simp [lookupD, h1, hk]
    · simp only [dictAdd, if_neg he]
      by_cases hk : e.1 = k'
      · have h1 : k' ≠ k := fun hh => he (hh ▸ hk)
        simp [lookupD, hk, h1]
      · by_cases h2 : k' = k
        · subst h2; simp [lookupD, hk, he, ih]
        · simp [lookupD, hk, h2, ih]

/-! ### The canonical key -/

theorem counterItems_eq_iff {l₁ l₂ : List Char} :
    counterItems l₁ = counterItems l₂ ↔ ∀ c, l₁.count c = l₂.count c := by
  constructor
  · intro h c
    by_cases hc : c ∈ l₁
    · have h1 : (c, l₁.count c) ∈ counterItems l₁ :=
        Finset.mem_image.mpr ⟨c, List.mem_toFinset.mpr hc, rfl⟩
      rw [h] at h1
      obtain ⟨c', _, heq⟩ := Finset.mem_image.mp h1
      rw [Prod.mk.injEq] at heq
      obtain ⟨h3, h4⟩ := heq
      subst h3
      exact h4.symm
    · have h0 : l₁.count c = 0 := List.count_eq_zero.mpr hc
      by_cases hc2 : c ∈ l₂
      · exfalso
        have h1 : (c, l₂.count c) ∈ counterItems l₂ :=
          Finset.mem_image.mpr ⟨c, List.mem_toFinset.mpr hc2, rfl⟩
        rw [← h] at h1
        obtain ⟨c', hc', heq⟩ := Finset.mem_image.mp h1
        rw [Prod.mk.injEq] at heq
        exact hc (heq.1 ▸ List.mem_toFinset.mp hc')
      · rw [h0, List.count_eq_zero.mpr hc2]
  · intro h
    have hfs : l₁.toFinset = l₂.toFinset := by
      ext c
      rw [List.mem_toFinset, List.mem_toFinset, ← List.count_pos_iff,
        ← List.count_pos_iff, h c]
    unfold counterItems
    rw [hfs]
    exact Finset.image_congr fun c _ => by rw [h c]

theorem counterItems_eq_iff_perm {l₁ l₂ : List Char} :
    counterItems l₁ = counterItems l₂ ↔ l₁.Perm l₂ := by
  rw [counterItems_eq_iff, List.perm_iff_count]

/-! ### Ingestion invariants -/

theorem mem_lookupD_ingestLine {idx : Index} {k : Key} {word : String}
    (h : word ∈ lookupD idx k) (line : String) :
    word ∈ lookupD (ingestLine idx line) k := by
  unfold ingestLine
  rw [lookupD_dictAdd]
  by_cases hk : k = counterKey (strip line)
  · rw [if_pos hk]
    exact mem_setAdd.mpr (Or.inl (hk ▸ h))
  · rw [if_neg hk]
    exact h

theorem self_mem_ingestLine (idx : Index) (line : String) :
    (strip line) ∈ lookupD (ingestLine idx line) (counterKey (strip line)) := by
  unfold ingestLine
  rw [lookupD_dictAdd, if_pos rfl]
  exact self_mem_setAdd _ _

theorem mem_lookupD_foldl {idx : Index} {k : Key} {word : String}
    (h : word ∈ lookupD idx k) (lines : List String) :
    word ∈ lookupD (lines.foldl ingestLine idx) k := by
  induction lines generalizing idx with
  | nil => exact h
  | cons l ls ih => exact ih (mem_lookupD_ingestLine h l)

theorem ingest_mem_aux (line : String) :
    ∀ lines : List String, line ∈ lines → ∀ idx : Index,
      (strip line) ∈ lookupD (lines.foldl ingestLine idx) (counterKey (strip line)) := by
  intro lines
  induction lines with
  | nil => intro h; cases h
  | cons l ls ih =>
    intro h idx
    rw [List.foldl_cons]
    rcases List.mem_cons.mp h with rfl | hmem
    · exact mem_lookupD_foldl (self_mem_ingestLine idx line) ls
    · exact ih hmem (ingestLine idx l)

theorem ingest_mem {lines : List String} {line : String} (h : line ∈ lines) :
    (strip line) ∈ lookupD (ingestLines lines) (counterKey (strip line)) :=
  ingest_mem_aux line lines h []

/-- Every word stored in a bucket of the dictionary carries the bucket's
key: the invariant maintained by ingestion. -/
def WellFormed (idx : Index) : Prop :=
  ∀ (k : Key) (word : String), word ∈ lookupD idx k → counterKey word = k

theorem wellFormed_empty : WellFormed [] :=
  fun _ word h => absurd h (List.not_mem_nil word)

theorem wellFormed_ingestLine {idx : Index} (h : WellFormed idx)
    (line : String) : WellFormed (ingestLine idx line) := by
  intro k word hw
  unfold ingestLine at hw
  rw [lookupD_dictAdd] at hw
  by_cases hk : k = counterKey (strip line)
  · rw [if_pos hk] at hw
    rcases mem_setAdd.mp hw with h1 | rfl
    · exact (h _ word h1).trans hk.symm
    · exact hk.symm
  · rw [if_neg hk] at hw
    exact h _ _ hw

theorem wellFormed_ingestLines (lines : List String) :
    WellFormed (ingestLines lines) := by
  unfold ingestLines
  suffices h : ∀ idx : Index, WellFormed idx → WellFormed (lines.foldl ingestLine idx) from
    h [] wellFormed_empty
  induction lines with
  | nil => exact fun idx h => h
  | cons l ls ih => exact fun idx h => ih (ingestLine idx l) (wellFormed_ingestLine h l)

/-- Every bucket of the dictionary is duplicate-free: Python `set`
semantics, maintained by ingestion. -/
def BucketsNodup (idx : Index) : Prop :=
  ∀ k : Key, (lookupD idx k).Nodup

theorem bucketsNodup_empty : BucketsNodup [] := fun _ => List.nodup_nil

theorem bucketsNodup_ingestLine {idx : Index} (h : BucketsNodup idx)
    (line : String) : BucketsNodup (ingestLine idx line) := by
  intro k
  unfold ingestLine
  rw [lookupD_dictAdd]
  by_cases hk : k = counterKey (strip line)
  · rw [if_pos hk]; exact setAdd_nodup (h _) _
  · rw [if_neg hk]; exact h k

theorem bucketsNodup_ingestLines (lines : List String) :
    BucketsNodup (ingestLines lines) := by
  unfold ingestLines
  suffices h : ∀ idx : Index, BucketsNodup idx →
      BucketsNodup (lines.foldl ingestLine idx) from h [] bucketsNodup_empty
  induction lines with
  | nil => exact fun idx h => h
  | cons l ls ih => exact fun idx h => ih (ingestLine idx l) (bucketsNodup_ingestLine h l)

/-! ### Characterising the solver's output -/

theorem mem_solveJumble {idx : Index} {w word : String} :
    word ∈ solveJumble idx w ↔
      ∃ i, (1 ≤ i ∧ i < 1 + w.length) ∧ ∃ combo, combo ∈ combosOf w i ∧
        word ∈ lookupD idx (counterItems combo) ∧ word ≠ w := by
  unfold solveJumble solveLen
  simp [List.mem_flatMap, List.mem_filter, decide_eq_true_eq, List.mem_range'_1]

theorem toList_length (w : String) : w.toList.length = w.length := rfl

theorem toList_eq_nil_iff (w : String) : w.toList = [] ↔ w = "" :=
  ⟨fun h => by cases w; cases h; rfl, fun h => by rw [h]; rfl⟩

/-! ### State threading through the solver -/

theorem foldl_solveStep (w : String) :
    ∀ (cs : List (List Char)) (acc : List String × Index),
      cs.foldl (solveStep w) acc =
        (acc.1 ++ cs.flatMap (fun combo =>
          (lookupD acc.2 (counterItems combo)).filter (fun word => word ≠ w)),
         acc.2) := by
  intro cs
  induction cs with
  | nil => intro acc; simp
  | cons c cs ih =>
    intro acc
    rw [List.foldl_cons, ih]
    simp [solveStep, dictGet, List.append_assoc]

theorem solveJumbleFull_eq (idx : Index) (w : String) :
    solveJumbleFull idx w = (solveJumble idx w, idx) := by
  unfold solveJumbleFull solveJumble solveLen
  suffices h : ∀ (is : List Nat) (acc : List String × Index),
      is.foldl (fun acc i => (combosOf w i).foldl (solveStep w) acc) acc =
        (acc.1 ++ is.flatMap (fun i => (combosOf w i).flatMap fun combo =>
          (lookupD acc.2 (counterItems combo)).filter (fun word => word ≠ w)),
         acc.2) by
    rw [h]; simp
  intro is
  induction is with
  | nil => intro acc; simp
  | cons i is ih =>
    intro acc
    rw [List.foldl_cons, foldl_solveStep, ih]
    simp [List.append_assoc]

/-! ### Claim theorems -/

/-- Claim C2.  Subset soundness of the solver: for every index built by ingesting
a word list and every query word `w`, every word yielded by the solver has
a character multiset that is a sub-multiset of `w`'s character multiset:
for every character `c` the count of `c` in the yielded word is at most the
count of `c` in `w`. -/
theorem solve_subset_sound {lines : List String} {w word : String}
    (h : word ∈ solveJumble (ingestLines lines) w) :
    ∀ c : Char, word.toList.count c ≤ w.toList.count c := by
  intro c
  obtain ⟨i, hi, combo, hcombo, hmem, hne⟩ := mem_solveJumble.mp h
  have hkey : counterKey word = counterItems combo :=
    wellFormed_ingestLines lines _ word hmem
  have hcount : word.toList.count c = combo.count c :=
    (counterItems_eq_iff.mp hkey) c
  have hsub : combo.Sublist w.toList :=
    (List.mem_sublistsLen.mp (List.mem_dedup.mp hcombo)).1
  exact hcount.trans_le (hsub.count_le c)

/-- Claim C3.  Anagram-equivalence of the canonical key: for all strings `a` and
`b`, the Letter Multiset Key (the finite set of (character, count) pairs of
the word's counter) satisfies `key a = key b` if and only if `a` and `b`
have the same character multiset. -/
theorem counterKey_eq_iff_anagram (a b : String) :
    counterKey a = counterKey b ↔
      (a.toList : Multiset Char) = (b.toList : Multiset Char) := by
  unfold counterKey
  rw [counterItems_eq_iff_perm]
  exact Multiset.coe_eq_coe.symm

/-- Claim C4.  Self-exclusion: for every index and every query word `w`,
the solver never yields `w` itself, even when `w` is stored verbatim in the
index: every yielded word is textually different from `w`. -/
theorem solve_self_exclusion {idx : Index} {w word : String}
    (h : word ∈ solveJumble idx w) : word ≠ w := by
  obtain ⟨i, hi, combo, hcombo, hmem, hne⟩ := mem_solveJumble.mp h
  exact hne

theorem solve_self_exclusion_witness : ("a" : String) ≠ "ab" :=
  @solve_self_exclusion (ingestLines ["a"]) "ab" "a" (by decide)

/-- Claim C7.  Empty query yields empty output: for every index, solving with the
empty string as the query word produces the empty result list. -/
theorem solve_empty_query (idx : Index) : solveJumble idx "" = [] := rfl

theorem dictAdd_idem (idx : Index) (k : Key) (w : String) :
    dictAdd (dictAdd idx k w) k w = dictAdd idx k w := by
  induction idx with
  | nil => simp [dictAdd, setAdd_idem]
  | cons e idx ih =>
    by_cases he : e.1 = k
    · simp [dictAdd, he, setAdd_idem]
    · simp [dictAdd, he, ih]

/-- Claim C8.  Idempotent ingestion: for every index state and every line,
ingesting the same line a second time leaves the index — and hence every
match set in it — unchanged. -/
theorem ingest_idempotent (idx : Index) (line : String) :
    ingestLine (ingestLine idx line) line = ingestLine idx line :=
  dictAdd_idem idx _ _

/-- Claim C9.  The solver never mutates the index: threading the dictionary state
through every read performed by the solver returns the index unchanged, and
the emitted words are exactly those of the pure solver; the solver is a
pure read-only function of the index and the input word. -/
theorem solve_no_mutation (idx : Index) (w : String) :
    (solveJumbleFull idx w).2 = idx ∧
      (solveJumbleFull idx w).1 = solveJumble idx w := by
  rw [solveJumbleFull_eq]
  exact ⟨rfl, rfl⟩

/-- Counterexample to claim C1.  The claim fails as stated: a blank line is ingested
as the empty word, the empty word's character multiset is a sub-multiset of
any query's, and it differs textually from the query `"a"`, yet the solver
never yields it (subset lengths start at 1, so the empty key is never
looked up). -/
theorem solve_complete_counterexample :
    ("" : String) ∈ List.map strip [""] ∧
      ((("" : String).toList : Multiset Char) ≤ (("a" : String).toList : Multiset Char)) ∧
      ("" : String) ≠ "a" ∧
      ("" : String) ∉ solveJumble (ingestLines [""]) "a" := by decide

/-- Claim C1 (amended).  Completeness of the solver: for every index built by
ingesting a word list and every query word `w`, every *nonempty* ingested
word whose character multiset is a sub-multiset of `w`'s character multiset
and which is not textually equal to `w` is yielded by the solver. -/
theorem solve_complete {lines : List String} {w word : String}
    (hmem : word ∈ List.map strip lines) (hne : word ≠ w) (hword : word ≠ "")
    (hsub : (word.toList : Multiset Char) ≤ (w.toList : Multiset Char)) :
    word ∈ solveJumble (ingestLines lines) w := by
  obtain ⟨t, hperm, hsl⟩ := Multiset.coe_le.mp hsub
  have hpos : 0 < word.toList.length :=
    List.length_pos.mpr fun hh => hword ((toList_eq_nil_iff word).mp hh)
  apply mem_solveJumble.mpr
  refine ⟨t.length, ⟨?_, ?_⟩, t, ?_, ?_, hne⟩
  · rw [hperm.length_eq]; exact hpos
  · have h1 := hsl.length_le
    rw [toList_length] at h1
    omega
  · exact List.mem_dedup.mpr (List.mem_sublistsLen.mpr ⟨hsl, rfl⟩)
  · have h2 : counterItems t = counterKey word := counterItems_eq_iff_perm.mpr hperm
    rw [h2]
    obtain ⟨line, hline, rfl⟩ := List.mem_map.mp hmem
    exact ingest_mem hline

theorem solve_complete_witness :
    ("do" : String) ∈ solveJumble (ingestLines ["do"]) "dog" :=
  @solve_complete ["do"] "dog" "do" (by decide) (by decide) (by decide) (by decide)

theorem solve_subset_sound_witness :
    ("do" : String).toList.count 'd' ≤ ("dog" : String).toList.count 'd' :=
  @solve_subset_sound ["do"] "dog" "do" (by decide) 'd'

/-- Counterexample to claim C5.  The claim fails as stated: with dictionary word
`"ab"` and query `"aba"`, the length-2 combinations contain both `('a','b')`
and `('b','a')` — distinct position-ordered tuples with the same character
multiset — so tuple-level deduplication does not merge them, the shared key
is looked up twice, and `"ab"` is yielded twice within subset length 2. -/
theorem solve_once_per_length_counterexample :
    List.count "ab" (solveLen (ingestLines ["ab"]) "aba" 2) = 2 := by decide

theorem count_flatMap_filter_le (idx : Index) (hwf : WellFormed idx)
    (hnd : BucketsNodup idx) (w word : String) (cs : List (List Char)) :
    List.count word (cs.flatMap fun combo =>
        (lookupD idx (counterItems combo)).filter fun x => x ≠ w) ≤
      cs.countP fun combo => decide (counterItems combo = counterKey word) := by
  have hfil : ∀ k : Key,
      List.count word ((lookupD idx k).filter fun x => x ≠ w) ≤
        List.count word (lookupD idx k) :=
    fun _ => (List.filter_sublist _).count_le word
  induction cs with
  | nil => simp
  | cons c cs ih =>
    rw [List.flatMap_cons, List.count_append, List.countP_cons]
    by_cases hc : counterItems c = counterKey word
    · have h1 : List.count word (lookupD idx (counterItems c)) ≤ 1 :=
        List.nodup_iff_count_le_one.mp (hnd _) word
      have h2 := hfil (counterItems c)
      rw [if_pos (by simp [hc])]
      omega
    · have h1 : List.count word (lookupD idx (counterItems c)) = 0 :=
        List.count_eq_zero.mpr fun hm => hc (hwf _ word hm).symm
      have h2 := hfil (counterItems c)
      rw [if_neg (by simp [hc])]
      omega

/-- Claim C5 (amended).  Within a single subset length `i` the solver
deduplicates the enumerated character tuples, so the list of looked-up
combinations is duplicate-free — each distinct position-ordered tuple is
looked up at most once — and a matching dictionary word is yielded at most
once per distinct tuple whose key equals the word's key.  Distinct tuples
of one length can still share a character multiset (when repeated letters
of the query are interleaved with other letters), so the same key may be
looked up more than once and a word may be yielded more than once within a
single subset length. -/
theorem solve_once_per_combo (lines : List String) (w : String) (i : Nat)
    (word : String) :
    (combosOf w i).Nodup ∧
      List.count word (solveLen (ingestLines lines) w i) ≤
        (combosOf w i).countP
          (fun combo => decide (counterItems combo = counterKey word)) :=
  ⟨List.nodup_dedup _,
   count_flatMap_filter_le (ingestLines lines) (wellFormed_ingestLines lines)
     (bucketsNodup_ingestLines lines) w word (combosOf w i)⟩

/-- Counterexample to claim C6.  The claim fails as stated: ingesting a source
consisting of one blank line does not leave the index equal to the index
built from the empty source — the empty string is stored under the empty
key. -/
theorem ingest_blank_counterexample :
    ingestLines [""] ≠ ingestLines ([] : List String) ∧
      "" ∈ lookupD (ingestLines [""]) (∅ : Key) := by decide

/-- Claim C6 (amended).  A line that is empty after stripping is not ignored:
it is ingested like any other word, storing the empty string under the
empty key.  The match set of every nonempty key is unchanged, so only the
empty key's bucket is affected. -/
theorem ingest_blank_line {idx : Index} {line : String} (h : strip line = "") :
    (∀ k : Key, k ≠ ∅ → lookupD (ingestLine idx line) k = lookupD idx k) ∧
      "" ∈ lookupD (ingestLine idx line) (∅ : Key) := by
  have hkey : counterKey (strip line) = (∅ : Key) := by rw [h]; rfl
  constructor
  · intro k hk
    have h2 : k ≠ counterKey (strip line) := by rw [hkey]; exact hk
    unfold ingestLine
    rw [lookupD_dictAdd, if_neg h2]
  · unfold ingestLine
    rw [lookupD_dictAdd, if_pos hkey.symm, h]
    exact self_mem_setAdd _ _

theorem ingest_blank_line_witness :
    lookupD (ingestLine (ingestLines ["ab"]) "") (counterKey "ab") =
        lookupD (ingestLines ["ab"]) (counterKey "ab") ∧
      "" ∈ lookupD (ingestLine (ingestLines ["ab"]) "") (∅ : Key) :=
  ⟨(@ingest_blank_line (ingestLines ["ab"]) "" (by decide)).1
      (counterKey "ab") (by decide),
   (@ingest_blank_line (ingestLines ["ab"]) "" (by decide)).2⟩

/-- Claim C10.  The solver never yields the empty string: for every index built
by ingesting a word list (including one with blank lines, which store the
empty word under the empty key) and every query word, every yielded word
has length at least 1. -/
theorem solve_nonempty {lines : List String} {w word : String}
    (h : word ∈ solveJumble (ingestLines lines) w) : 1 ≤ word.length := by
  obtain ⟨i, hi, combo, hcombo, hmem, hne⟩ := mem_solveJumble.mp h
  have hkey : counterKey word = counterItems combo :=
    wellFormed_ingestLines lines _ word hmem
  have hperm : combo.Perm word.toList := counterItems_eq_iff_perm.mp hkey.symm
  have hlen : combo.length = i :=
    (List.mem_sublistsLen.mp (List.mem_dedup.mp hcombo)).2
  have h2 : combo.length = word.toList.length := hperm.length_eq
  rw [toList_length] at h2
  omega

theorem solve_nonempty_witness : 1 ≤ ("a" : String).length :=
  @solve_nonempty ["a"] "ab" "a" (by decide)

end JumbleSolver
